import Mathlib

/-
Verification of the workspace discovery and script-aggregation engine of
go-npm-run, against its specification.

The development shallowly embeds the Go sources:
  - findPackageJSON / findProjectRootPackageJSONPathsConcurrent (the
    concurrent manifest walk),
  - locatePnpmWorkspaces (the pnpm workspace-manifest resolver),
  - extractScriptsFromPackageJSON / extractScriptsFromPackageJSONsConcurrent
    (the script extractor, including in-manifest workspaces expansion),
  - inferPackageManager (the lockfile walk),
as pure Lean functions over an explicit filesystem tree.

Concurrency is modelled with task trees: every goroutine is a task that
emits outputs and spawns child tasks; a scheduler run consumes a queue of
tasks in an order chosen by an arbitrary schedule. Theorems about the
emitted multiset therefore hold for every interleaving.

Filesystem paths are lists of components relative to the search root.
Stdlib pieces (encoding/json decoding shapes, filepath.Join cleaning,
filepath.Glob matching as of Go 1.16 and later where pattern syntax is
validated up front, filepath.Dir) are modelled from their documented
behaviour; everything else is translated from the repository sources.
-/

/-! ## Generic concurrent task machinery -/

/--
A task tree: one unit of concurrent work, together with the outputs it
emits and the child tasks it spawns. Spawned children are further
scheduled, so the tree describes the whole fan-out of one root task.
-/
inductive TTree (α : Type) where
  | node (out : List α) (children : List (TTree α))

namespace TTree

/-- Outputs emitted directly by the root task of a tree. -/
def out {α : Type} : TTree α → List α
  | node o _ => o

/-- Child tasks spawned directly by the root task of a tree. -/
def children {α : Type} : TTree α → List (TTree α)
  | node _ c => c

/-- All outputs of a task tree, in canonical depth-first order. -/
def denoteL {α : Type} : TTree α → List α
  | node o cs => o ++ (cs.attach.map (fun ⟨c, _⟩ => denoteL c)).flatten
decreasing_by
  rename_i h
  have h2 := List.sizeOf_lt_of_mem h
  simp at h2 ⊢
  omega

/-- Number of tasks in a task tree. -/
def size {α : Type} : TTree α → Nat
  | node _ cs => 1 + (cs.attach.map (fun ⟨c, _⟩ => size c)).sum
decreasing_by
  rename_i h
  have h2 := List.sizeOf_lt_of_mem h
  simp at h2 ⊢
  omega

theorem denoteL_node {α : Type} (o : List α) (cs : List (TTree α)) :
    denoteL (node o cs) = o ++ (cs.map denoteL).flatten := by
  rw [denoteL, List.attach_map_coe]

theorem size_node {α : Type} (o : List α) (cs : List (TTree α)) :
    size (node o cs) = 1 + (cs.map size).sum := by
  rw [size, List.attach_map_coe]

/-- All outputs of a task tree, as a multiset. -/
def denoteM {α : Type} (t : TTree α) : Multiset α := (t.denoteL : Multiset α)

theorem size_pos {α : Type} (t : TTree α) : 1 ≤ t.size := by
  cases t with
  | node o cs => rw [size_node]; omega

theorem coe_flatten {α : Type} (L : List (List α)) :
    ((L.flatten : List α) : Multiset α) = (L.map Multiset.ofList).sum := by
  induction L with
  | nil => simp
  | cons l rest ih =>
    rw [List.flatten_cons, ← Multiset.coe_add, ih, List.map_cons, List.sum_cons]

theorem denoteM_node {α : Type} (o : List α) (cs : List (TTree α)) :
    denoteM (node o cs) = (o : Multiset α) + ((cs.map denoteM).sum) := by
  rw [denoteM, denoteL_node, ← Multiset.coe_add, coe_flatten, List.map_map]
  rfl

theorem size_eq {α : Type} (t : TTree α) : t.size = 1 + (t.children.map size).sum := by
  cases t with
  | node o cs => rw [size_node]; rfl

theorem denoteM_eq {α : Type} (t : TTree α) :
    t.denoteM = (t.out : Multiset α) + ((t.children.map denoteM).sum) := by
  cases t with
  | node o cs => rw [denoteM_node]; rfl

end TTree

/-- Combined task count of a queue of task trees. -/
def totalSize {α : Type} (q : List (TTree α)) : Nat := (q.map TTree.size).sum

/-- Combined output multiset of a queue of task trees. -/
def totalDenote {α : Type} (q : List (TTree α)) : Multiset α := (q.map TTree.denoteM).sum

/--
A nondeterministic scheduler run over a queue of concurrent tasks: at each
step the schedule picks a pending task (by index modulo queue length); the
outputs of the picked task are collected and its spawned children join the
queue. The run stops when the queue or the schedule is exhausted.
-/
def runSched {α : Type} : List Nat → List (TTree α) → List α
  | [], _ => []
  | _ :: _, [] => []
  | i :: rest, t0 :: q0 =>
    let j := i % (t0 :: q0).length
    have hj : j < (t0 :: q0).length := Nat.mod_lt _ (by simp)
    let t := (t0 :: q0)[j]
    t.out ++ runSched rest ((t0 :: q0).eraseIdx j ++ t.children)

theorem list_perm_getElem_cons_eraseIdx {α : Type} (q : List α) (j : Nat) (hj : j < q.length) :
    q.Perm (q[j] :: q.eraseIdx j) := by
  conv_lhs => rw [← List.take_append_drop j q, List.drop_eq_getElem_cons hj]
  rw [List.eraseIdx_eq_take_drop_succ]
  exact List.perm_middle

theorem totalSize_pick {α : Type} (q : List (TTree α)) (j : Nat) (hj : j < q.length) :
    totalSize q = (q[j]).size + totalSize (q.eraseIdx j) := by
  have hp := (list_perm_getElem_cons_eraseIdx q j hj).map TTree.size
  have h2 := hp.sum_eq
  simpa [totalSize] using h2

theorem totalDenote_pick {α : Type} (q : List (TTree α)) (j : Nat) (hj : j < q.length) :
    totalDenote q = (q[j]).denoteM + totalDenote (q.eraseIdx j) := by
  have hp := (list_perm_getElem_cons_eraseIdx q j hj).map TTree.denoteM
  have h2 := hp.sum_eq
  simpa [totalDenote] using h2

theorem totalSize_append {α : Type} (q1 q2 : List (TTree α)) :
    totalSize (q1 ++ q2) = totalSize q1 + totalSize q2 := by
  simp [totalSize]

theorem totalDenote_append {α : Type} (q1 q2 : List (TTree α)) :
    totalDenote (q1 ++ q2) = totalDenote q1 + totalDenote q2 := by
  simp [totalDenote]

/--
Schedule independence: the collected output of a scheduler run, viewed as a
multiset, does not depend on the schedule. Any schedule long enough to
drain the task queue yields exactly the total denotation of the queue.
-/
theorem runSched_eq_totalDenote {α : Type} (sched : List Nat) (q : List (TTree α))
    (hs : totalSize q ≤ sched.length) :
    (runSched sched q : Multiset α) = totalDenote q := by
  induction sched generalizing q with
  | nil =>
    cases q with
    | nil => simp [runSched, totalDenote]
    | cons t rest =>
      exfalso
      have := TTree.size_pos t
      simp [totalSize] at hs
      omega
  | cons i rest ih =>
    cases q with
    | nil => simp [runSched, totalDenote]
    | cons t0 q0 =>
      rw [runSched]
      have hj : i % (t0 :: q0).length < (t0 :: q0).length := Nat.mod_lt _ (by simp)
      set j := i % (t0 :: q0).length with hjdef
      set q : List (TTree α) := t0 :: q0 with hqdef
      have hsz : totalSize (q.eraseIdx j ++ (q[j]).children) ≤ rest.length := by
        rw [totalSize_append]
        have h1 := totalSize_pick q j hj
        have h2 := TTree.size_eq (q[j])
        have h3 : totalSize ((q[j]).children) = ((q[j]).children.map TTree.size).sum := rfl
        simp only [List.length_cons] at hs
        omega
      rw [← Multiset.coe_add, ih _ hsz, totalDenote_append, totalDenote_pick q j hj,
        TTree.denoteM_eq (q[j])]
      have h4 : totalDenote ((q[j]).children) = (((q[j]).children).map TTree.denoteM).sum := rfl
      rw [h4]
      abel

/-! ## Data model: decoded Go values and the filesystem -/

/--
A decoded Go dynamic value, as produced by json.Unmarshal into
map[string]any and inspected through type assertions. JSON arrays decode to
dynamic type []any (constructor varr); dynamic type []string (constructor
varrStr) exists in the Go type system and is matched by the source but is
never produced when decoding JSON, which we record with the predicate
fromJSON below.
-/
inductive GoVal where
  | vnull
  | vbool (b : Bool)
  | vnum (n : Int)
  | vstr (s : String)
  | varr (xs : List GoVal)
  | varrStr (xs : List String)
  | vmap (fields : List (String × GoVal))
deriving Repr

/--
Content of one file, already parsed. A manifest file carries the result of
json.Unmarshal into map[string]any (none when opening, reading or parsing
fails, or the document is not a JSON object); a workspace-manifest file
carries the result of yaml.Unmarshal into the pnpmWorkspace struct (its
packages field); any other file content is opaque.
-/
inductive FileData where
  | jsonFile (doc : Option (List (String × GoVal)))
  | yamlFile (pk : Option (List String))
  | plain
deriving Repr

/-- A filesystem tree: files with parsed content, and directories with named entries. -/
inductive FNode where
  | file (d : FileData)
  | dir (es : List (String × FNode))
deriving Repr

/-- A filesystem path, as the list of components relative to the search root. -/
abbrev FPath := List String

/-- Directory-entry lookup by name, as the OS resolves a single component. -/
def entryLookup (es : List (String × FNode)) (name : String) : Option FNode :=
  (es.find? (fun e => e.1 == name)).map (fun e => e.2)

/-- Resolve a path against a filesystem tree, as the OS resolves nested components. -/
def FNode.lookup : FNode → FPath → Option FNode
  | n, [] => some n
  | .dir es, c :: rest =>
    match entryLookup es c with
    | some child => child.lookup rest
    | none => none
  | .file _, _ :: _ => none

/-- Model of os.Stat success: the path resolves to some node (file or directory). -/
def pathExists (fs : FNode) (p : FPath) : Bool := (fs.lookup p).isSome

def FNode.isDir : FNode → Bool
  | .dir _ => true
  | .file _ => false

/-- Does a directory node directly contain an entry named package.json? -/
def FNode.hasOwnManifest : FNode → Bool
  | .dir es => (entryLookup es "package.json").isSome
  | .file _ => false

/-- Model of os.Stat on path/package.json. -/
def dirHasManifest (fs : FNode) (p : FPath) : Bool := pathExists fs (p ++ ["package.json"])

theorem lookup_append (fs : FNode) (p q : FPath) :
    fs.lookup (p ++ q) = (fs.lookup p).bind (fun n => n.lookup q) := by
  induction p generalizing fs with
  | nil => simp [FNode.lookup]
  | cons c rest ih =>
    cases fs with
    | file d => simp [FNode.lookup]
    | dir es =>
      rw [List.cons_append, FNode.lookup]
      cases h : entryLookup es c with
      | none => simp [FNode.lookup, h]
      | some child => simp [FNode.lookup, h, ih]

/-! ## ManifestLocator: the concurrent package.json walk (findPackageJSON) -/

/--
Directory names pruned by the walk, translated from the ignoredDirs map of
the source.
-/
def ignoredDirs : List String :=
  [".circleci", ".github", ".git", ".hg", ".svn", ".idea", ".vscode", "node_modules",
   "__tests__", "__test__", "__specs__", "__spec__", "__mocks__", "__mock__",
   "__snapshots__", "__fixtures__"]

def isIgnored (name : String) : Bool := ignoredDirs.contains name

/-- Condition for an entry whose manifest path is emitted without descending. -/
def emitCond (e : String × FNode) : Bool :=
  e.2.isDir && !isIgnored e.1 && e.2.hasOwnManifest

/-- Condition for an entry whose subtree is walked by a spawned child task. -/
def recurseCond (e : String × FNode) : Bool :=
  e.2.isDir && !isIgnored e.1 && !e.2.hasOwnManifest

/--
The concurrent walk findPackageJSON as a task tree. One task per visited
directory: opening a non-directory fails and emits nothing; a directory
that directly contains package.json emits that path and stops; otherwise
each non-ignored subdirectory either has its manifest path emitted (when it
directly contains package.json, without descending into it) or is walked by
a spawned child task.
-/
def walkTT : FNode → FPath → TTree FPath
  | .file _, _ => .node [] []
  | .dir es, p =>
    if (entryLookup es "package.json").isSome then
      .node [p ++ ["package.json"]] []
    else
      .node
        (es.filterMap (fun e =>
          if emitCond e then some (p ++ [e.1, "package.json"]) else none))
        ((es.attach.map (fun ⟨e, _⟩ =>
          if recurseCond e then some (walkTT e.2 (p ++ [e.1])) else none)).filterMap id)
termination_by n p => sizeOf n
decreasing_by
  rename_i hmem hcond
  obtain ⟨name, child⟩ := e
  have h2 := List.sizeOf_lt_of_mem hmem
  simp at h2 ⊢
  omega

theorem walkTT_file (d : FileData) (p : FPath) : walkTT (.file d) p = .node [] [] := by
  rw [walkTT]

theorem walkTT_dir_stop (es : List (String × FNode)) (p : FPath)
    (h : (entryLookup es "package.json").isSome) :
    walkTT (.dir es) p = .node [p ++ ["package.json"]] [] := by
  rw [walkTT, if_pos h]

theorem walkTT_dir_descend (es : List (String × FNode)) (p : FPath)
    (h : ¬(entryLookup es "package.json").isSome) :
    walkTT (.dir es) p = .node
      (es.filterMap (fun e =>
        if emitCond e then some (p ++ [e.1, "package.json"]) else none))
      (es.filterMap (fun e =>
        if recurseCond e then some (walkTT e.2 (p ++ [e.1])) else none)) := by
  rw [walkTT, if_neg h]
  congr 1
  have h3 := List.attach_map_coe es (fun e =>
    if recurseCond e then some (walkTT e.2 (p ++ [e.1])) else none)
  rw [h3, List.filterMap_map]
  rfl

/-- Wellformed filesystem: in every directory the entry names are distinct. -/
def WFfs : FNode → Bool
  | .file _ => true
  | .dir es =>
    decide ((es.map Prod.fst).Nodup) &&
      (es.attach.map (fun ⟨e, _⟩ => WFfs e.2)).all (fun b => b)
termination_by n => sizeOf n
decreasing_by
  rename_i he
  obtain ⟨name, child⟩ := e
  have h2 := List.sizeOf_lt_of_mem he
  simp at h2 ⊢
  omega

theorem WFfs_file (d : FileData) : WFfs (.file d) = true := by rw [WFfs]

theorem WFfs_dir (es : List (String × FNode)) :
    WFfs (.dir es) =
      (decide ((es.map Prod.fst).Nodup) && (es.map (fun e => WFfs e.2)).all (fun b => b)) := by
  rw [WFfs]
  congr 2
  exact List.attach_map_coe es (fun e => WFfs e.2)

theorem WFfs_dir_names (es : List (String × FNode)) (h : WFfs (.dir es) = true) :
    (es.map Prod.fst).Nodup := by
  rw [WFfs_dir] at h
  simp only [Bool.and_eq_true] at h
  exact of_decide_eq_true h.1

theorem WFfs_dir_entry (es : List (String × FNode)) (h : WFfs (.dir es) = true)
    (e : String × FNode) (he : e ∈ es) : WFfs e.2 = true := by
  rw [WFfs_dir] at h
  simp only [Bool.and_eq_true, List.all_eq_true] at h
  exact h.2 _ (List.mem_map_of_mem _ he)

/-! ## Characterizing the walk -/

/-- Does a path resolve to a directory? -/
def isDirAt (fs : FNode) (p : FPath) : Bool :=
  match fs.lookup p with
  | some n => n.isDir
  | none => false

/--
A directory path is okay when it resolves to a directory that directly
contains package.json, no component of it is an ignored name, and no
proper prefix of it is a directory that directly contains package.json
(the walk treats such a directory as a package root and does not descend).
-/
def pathOkay (fs : FNode) (dp : FPath) : Bool :=
  isDirAt fs dp && dirHasManifest fs dp && dp.all (fun c => !isIgnored c) &&
    (List.range dp.length).all (fun i => !dirHasManifest fs (dp.take i))

/--
The canonical list of okay directory paths of a subtree, ordered the way
the walk reaches them.
-/
def okayList : FNode → List FPath
  | .file _ => []
  | .dir es =>
    if (entryLookup es "package.json").isSome then [[]]
    else
      (es.filterMap (fun e => if emitCond e then some [e.1] else none))
      ++ ((es.attach.map (fun ⟨e, _⟩ =>
        if recurseCond e then some ((okayList e.2).map (fun dp => e.1 :: dp))
        else none)).filterMap id).flatten
termination_by n => sizeOf n
decreasing_by
  rename_i hmem hcond
  obtain ⟨name, child⟩ := e
  have h2 := List.sizeOf_lt_of_mem hmem
  simp at h2 ⊢
  omega

theorem okayList_file (d : FileData) : okayList (.file d) = [] := by
  rw [okayList]

theorem okayList_dir_stop (es : List (String × FNode))
    (h : (entryLookup es "package.json").isSome) :
    okayList (.dir es) = [[]] := by
  rw [okayList, if_pos h]

theorem okayList_dir_descend (es : List (String × FNode))
    (h : ¬(entryLookup es "package.json").isSome) :
    okayList (.dir es) =
      (es.filterMap (fun e => if emitCond e then some [e.1] else none))
      ++ (es.filterMap (fun e =>
        if recurseCond e then some ((okayList e.2).map (fun dp => e.1 :: dp))
        else none)).flatten := by
  rw [okayList, if_neg h]
  congr 2
  have h3 := List.attach_map_coe es (fun e =>
    if recurseCond e then some ((okayList e.2).map (fun dp => e.1 :: dp))
    else none)
  rw [h3, List.filterMap_map]
  rfl

theorem fnode_sizeOf_entry_lt (es : List (String × FNode)) (e : String × FNode) (he : e ∈ es) :
    sizeOf e.2 < sizeOf (FNode.dir es) := by
  obtain ⟨name, child⟩ := e
  have h2 := List.sizeOf_lt_of_mem he
  simp at h2 ⊢
  omega

/-- Strong induction principle over filesystem trees. -/
theorem fnode_strong_ind (P : FNode → Prop)
    (hfile : ∀ d, P (.file d))
    (hdir : ∀ es, (∀ e ∈ es, P e.2) → P (.dir es)) :
    ∀ n, P n := by
  have key : ∀ (k : Nat) (n : FNode), sizeOf n ≤ k → P n := by
    intro k
    induction k with
    | zero =>
      intro n hn
      exfalso
      cases n with
      | file d => simp at hn
      | dir es => simp at hn
    | succ k ih =>
      intro n hn
      cases n with
      | file d => exact hfile d
      | dir es =>
        apply hdir
        intro e he
        apply ih
        have := fnode_sizeOf_entry_lt es e he
        omega
  intro n
  exact key (sizeOf n) n (le_refl _)

/--
The walk emits exactly the okay directory paths, each extended with the
package.json component and anchored at the start path.
-/
theorem walk_denote (n : FNode) :
    ∀ p : FPath,
      (walkTT n p).denoteL = (okayList n).map (fun dp => p ++ dp ++ ["package.json"]) := by
  induction n using fnode_strong_ind with
  | hfile d =>
    intro p
    rw [walkTT_file, okayList_file, TTree.denoteL_node]
    simp
  | hdir es ih =>
    intro p
    by_cases h : (entryLookup es "package.json").isSome
    · rw [walkTT_dir_stop es p h, okayList_dir_stop es h, TTree.denoteL_node]
      simp
    · rw [walkTT_dir_descend es p h, okayList_dir_descend es h, TTree.denoteL_node,
        List.map_append]
      congr 1
      · rw [List.map_filterMap]
        apply List.filterMap_congr
        intro e he
        by_cases hc : emitCond e = true
        · rw [if_pos hc, if_pos hc, Option.map_some']
          congr 1
          simp
        · rw [if_neg hc, if_neg hc, Option.map_none']
      · rw [List.map_flatten, List.map_filterMap, List.map_filterMap]
        congr 1
        apply List.filterMap_congr
        intro e he
        by_cases hc : recurseCond e = true
        · rw [if_pos hc, if_pos hc, Option.map_some', Option.map_some', ih e he, List.map_map]
          congr 1
          apply List.map_congr_left
          intro dp hdp
          simp
        · rw [if_neg hc, if_neg hc, Option.map_none', Option.map_none']

theorem lookup_dir_cons_some (es : List (String × FNode)) (nm : String) (c : FNode)
    (rest : FPath) (hc : entryLookup es nm = some c) :
    (FNode.dir es).lookup (nm :: rest) = c.lookup rest := by
  rw [FNode.lookup, hc]

theorem lookup_dir_cons_none (es : List (String × FNode)) (nm : String)
    (rest : FPath) (hc : entryLookup es nm = none) :
    (FNode.dir es).lookup (nm :: rest) = none := by
  rw [FNode.lookup, hc]

theorem isDirAt_nil (n : FNode) : isDirAt n [] = n.isDir := by
  rw [isDirAt, FNode.lookup]

theorem dirHasManifest_nil (n : FNode) : dirHasManifest n [] = n.hasOwnManifest := by
  cases n with
  | file d => rw [dirHasManifest, pathExists]; rfl
  | dir es =>
    rw [dirHasManifest, pathExists, List.nil_append]
    show ((FNode.dir es).lookup ["package.json"]).isSome = _
    rw [FNode.lookup]
    cases hc : entryLookup es "package.json" with
    | none => simp [FNode.hasOwnManifest, hc]
    | some child => simp [FNode.hasOwnManifest, hc, FNode.lookup]

theorem isDirAt_cons_some (es : List (String × FNode)) (nm : String) (c : FNode)
    (rest : FPath) (hc : entryLookup es nm = some c) :
    isDirAt (.dir es) (nm :: rest) = isDirAt c rest := by
  rw [isDirAt, isDirAt, lookup_dir_cons_some es nm c rest hc]

theorem dirHasManifest_cons_some (es : List (String × FNode)) (nm : String) (c : FNode)
    (rest : FPath) (hc : entryLookup es nm = some c) :
    dirHasManifest (.dir es) (nm :: rest) = dirHasManifest c rest := by
  rw [dirHasManifest, dirHasManifest, pathExists, pathExists, List.cons_append,
    lookup_dir_cons_some es nm c _ hc]

theorem isDirAt_imp_isDir (c : FNode) (rest : FPath) (h : isDirAt c rest = true) :
    c.isDir = true := by
  cases rest with
  | nil => rw [isDirAt_nil] at h; exact h
  | cons x r =>
    cases c with
    | file d => rw [isDirAt, FNode.lookup] at h; simp at h
    | dir es => rfl

theorem entryLookup_mem (es : List (String × FNode)) (nm : String) (c : FNode)
    (hc : entryLookup es nm = some c) : (nm, c) ∈ es := by
  rw [entryLookup] at hc
  cases hfind : es.find? (fun e => e.1 == nm) with
  | none => rw [hfind] at hc; simp at hc
  | some e =>
    rw [hfind] at hc
    simp at hc
    have hmem := List.mem_of_find?_eq_some hfind
    have hpred := List.find?_some hfind
    obtain ⟨n0, c0⟩ := e
    simp at hpred hc
    rw [← hpred, ← hc]
    exact hmem

theorem entryLookup_of_mem (es : List (String × FNode))
    (hnames : (es.map Prod.fst).Nodup) (e : String × FNode) (he : e ∈ es) :
    entryLookup es e.1 = some e.2 := by
  obtain ⟨nm, c⟩ := e
  induction es with
  | nil => simp at he
  | cons e0 rest ih =>
    obtain ⟨n0, c0⟩ := e0
    rw [List.map_cons, List.nodup_cons] at hnames
    rcases List.mem_cons.mp he with heq | hmem
    · rw [entryLookup]
      have h1 : n0 = nm := by
        have := congrArg Prod.fst heq
        simp at this
        exact this.symm
      have h2 : c0 = c := by
        have := congrArg Prod.snd heq
        simp at this
        exact this.symm
      subst h1
      subst h2
      rw [List.find?_cons_of_pos _ (by simp)]
      simp
    · have hne : n0 ≠ nm := by
        intro heq2
        apply hnames.1
        rw [heq2]
        have h3 := List.mem_map_of_mem Prod.fst hmem
        simpa using h3
      rw [entryLookup, List.find?_cons_of_neg _ (by simpa using hne)]
      exact ih hnames.2 hmem

theorem filterMap_ite_eq_map_filter {α β : Type} (p : α → Bool) (g : α → β) (l : List α) :
    (l.filterMap (fun a => if p a then some (g a) else none)) = (l.filter p).map g := by
  induction l with
  | nil => rfl
  | cons a rest ih =>
    by_cases hp : p a = true
    · rw [List.filterMap_cons, List.filter_cons]
      simp [hp, ih]
    · rw [List.filterMap_cons, List.filter_cons]
      simp [hp, ih]

theorem okayList_dir_descend2 (es : List (String × FNode))
    (h : ¬(entryLookup es "package.json").isSome) :
    okayList (.dir es) =
      ((es.filter emitCond).map (fun e => [e.1]))
      ++ ((es.filter recurseCond).map
          (fun e => (okayList e.2).map (fun dp => e.1 :: dp))).flatten := by
  rw [okayList_dir_descend es h]
  rw [filterMap_ite_eq_map_filter emitCond (fun e => [e.1]) es]
  rw [filterMap_ite_eq_map_filter recurseCond
    (fun e => (okayList e.2).map (fun dp => e.1 :: dp)) es]

theorem pathOkay_nil (n : FNode) : pathOkay n [] = (n.isDir && n.hasOwnManifest) := by
  rw [pathOkay, isDirAt_nil, dirHasManifest_nil]
  simp

theorem pathOkay_file (d : FileData) (dp : FPath) : pathOkay (.file d) dp = false := by
  cases dp with
  | nil => rw [pathOkay_nil]; rfl
  | cons nm rest =>
    rw [pathOkay]
    have h : isDirAt (.file d) (nm :: rest) = false := by rw [isDirAt, FNode.lookup]
    rw [h]
    simp

theorem pathOkay_cons_none (es : List (String × FNode)) (nm : String) (rest : FPath)
    (hc : entryLookup es nm = none) : pathOkay (.dir es) (nm :: rest) = false := by
  rw [pathOkay]
  have h : isDirAt (.dir es) (nm :: rest) = false := by
    rw [isDirAt, lookup_dir_cons_none es nm rest hc]
  rw [h]
  simp

theorem pathOkay_cons_some (es : List (String × FNode)) (nm : String) (c : FNode)
    (rest : FPath) (hc : entryLookup es nm = some c) :
    (pathOkay (.dir es) (nm :: rest) = true ↔
      (isIgnored nm = false ∧ (FNode.dir es).hasOwnManifest = false ∧ pathOkay c rest = true)) := by
  have hpre : ∀ L : List Nat,
      (L.map Nat.succ).all (fun i => !dirHasManifest (.dir es) ((nm :: rest).take i))
        = L.all (fun k => !dirHasManifest c (rest.take k)) := by
    intro L
    rw [List.all_map]
    congr 1
    funext k
    show (!dirHasManifest (.dir es) ((nm :: rest).take (k + 1))) = _
    rw [List.take_succ_cons, dirHasManifest_cons_some es nm c _ hc]
  rw [pathOkay, pathOkay, isDirAt_cons_some es nm c rest hc,
    dirHasManifest_cons_some es nm c rest hc, List.length_cons, List.range_succ_eq_map]
  simp only [List.all_cons]
  rw [hpre (List.range rest.length)]
  have h0 : (!dirHasManifest (.dir es) ((nm :: rest).take 0)) = !(FNode.dir es).hasOwnManifest := by
    rw [List.take_zero, dirHasManifest_nil]
  rw [h0]
  simp only [Bool.and_eq_true, Bool.not_eq_true']
  tauto

theorem pathOkay_own_nil (c : FNode) (rest : FPath) (hown : c.hasOwnManifest = true)
    (hpo : pathOkay c rest = true) : rest = [] := by
  cases rest with
  | nil => rfl
  | cons x r =>
    exfalso
    rw [pathOkay] at hpo
    simp only [Bool.and_eq_true, List.all_eq_true] at hpo
    have h0 := hpo.2 0 (by simp)
    rw [List.take_zero, dirHasManifest_nil, hown] at h0
    simp at h0

theorem mem_okayList (n : FNode) :
    WFfs n = true → ∀ dp : FPath, (dp ∈ okayList n ↔ pathOkay n dp = true) := by
  induction n using fnode_strong_ind with
  | hfile d =>
    intro hwf dp
    rw [okayList_file, pathOkay_file]
    simp
  | hdir es ih =>
    intro hwf dp
    have hnames := WFfs_dir_names es hwf
    by_cases hown : (entryLookup es "package.json").isSome
    · rw [okayList_dir_stop es hown]
      cases dp with
      | nil =>
        rw [pathOkay_nil]
        simp [FNode.isDir, FNode.hasOwnManifest, hown]
      | cons nm rest =>
        constructor
        · intro hmem
          simp at hmem
        · intro hpo
          exfalso
          have h2 := pathOkay_own_nil (.dir es) (nm :: rest)
            (by simpa [FNode.hasOwnManifest] using hown) hpo
          simp at h2
    · rw [okayList_dir_descend2 es hown]
      have hownF : (FNode.dir es).hasOwnManifest = false := by
        simp only [FNode.hasOwnManifest]
        exact Bool.eq_false_iff.mpr hown
      cases dp with
      | nil =>
        rw [pathOkay_nil, hownF]
        constructor
        · intro hmem
          exfalso
          rcases List.mem_append.mp hmem with h1 | h2
          · rcases List.mem_map.mp h1 with ⟨e, he, heq⟩
            simp at heq
          · rcases List.mem_flatten.mp h2 with ⟨l, hl, hmem2⟩
            rcases List.mem_map.mp hl with ⟨e, he, heq⟩
            rw [← heq] at hmem2
            rcases List.mem_map.mp hmem2 with ⟨dp2, hdp2, heq2⟩
            simp at heq2
        · intro hpo
          simp at hpo
      | cons nm rest =>
        cases hc : entryLookup es nm with
        | none =>
          rw [pathOkay_cons_none es nm rest hc]
          constructor
          · intro hmem
            exfalso
            have hex : ∃ e, e ∈ es ∧ e.1 = nm := by
              rcases List.mem_append.mp hmem with h1 | h2
              · rcases List.mem_map.mp h1 with ⟨e, he, heq⟩
                simp at heq
                exact ⟨e, List.mem_of_mem_filter he, heq.1⟩
              · rcases List.mem_flatten.mp h2 with ⟨l, hl, hmem2⟩
                rcases List.mem_map.mp hl with ⟨e, he, heq⟩
                rw [← heq] at hmem2
                rcases List.mem_map.mp hmem2 with ⟨dp2, hdp2, heq2⟩
                simp at heq2
                exact ⟨e, List.mem_of_mem_filter he, heq2.1⟩
            rcases hex with ⟨e, he, heq⟩
            have h3 := entryLookup_of_mem es hnames e he
            rw [heq, hc] at h3
            simp at h3
          · intro h
            simp at h
        | some c =>
          rw [pathOkay_cons_some es nm c rest hc]
          have hcmem : (nm, c) ∈ es := entryLookup_mem es nm c hc
          have hwfc : WFfs c = true := WFfs_dir_entry es hwf (nm, c) hcmem
          have hIH := ih (nm, c) hcmem hwfc
          have huniq : ∀ e, e ∈ es → e.1 = nm → e.2 = c := by
            intro e he heq
            have h2 := entryLookup_of_mem es hnames e he
            rw [heq, hc] at h2
            exact (Option.some.inj h2).symm
          constructor
          · intro hmem
            rcases List.mem_append.mp hmem with h1 | h2
            · rcases List.mem_map.mp h1 with ⟨e, he, heq⟩
              have heF := List.mem_filter.mp he
              simp at heq
              obtain ⟨h3, h4⟩ := heq
              have h5 := huniq e heF.1 h3
              have hcond := heF.2
              rw [emitCond] at hcond
              simp only [Bool.and_eq_true, Bool.not_eq_true'] at hcond
              refine ⟨by rw [← h3]; exact hcond.1.2, hownF, ?_⟩
              rw [h4, pathOkay_nil, ← h5]
              rw [hcond.1.1, hcond.2]
              rfl
            · rcases List.mem_flatten.mp h2 with ⟨l, hl, hmem2⟩
              rcases List.mem_map.mp hl with ⟨e, he, heq⟩
              rw [← heq] at hmem2
              rcases List.mem_map.mp hmem2 with ⟨dp2, hdp2, heq2⟩
              simp at heq2
              obtain ⟨h3, h4⟩ := heq2
              have heF := List.mem_filter.mp he
              have h5 := huniq e heF.1 h3
              have hcond := heF.2
              rw [recurseCond] at hcond
              simp only [Bool.and_eq_true, Bool.not_eq_true'] at hcond
              refine ⟨by rw [← h3]; exact hcond.1.2, hownF, ?_⟩
              rw [← h5]
              apply (ih e heF.1 (WFfs_dir_entry es hwf e heF.1) dp2).mp at hdp2
              rw [← h4]
              exact hdp2
          · rintro ⟨hign, -, hpo⟩
            by_cases hcown : c.hasOwnManifest = true
            · have hrest := pathOkay_own_nil c rest hcown hpo
              subst hrest
              apply List.mem_append.mpr
              left
              apply List.mem_map.mpr
              refine ⟨(nm, c), ?_, rfl⟩
              apply List.mem_filter.mpr
              refine ⟨hcmem, ?_⟩
              rw [pathOkay_nil] at hpo
              simp only [Bool.and_eq_true] at hpo
              rw [emitCond]
              simp [hign, hcown, hpo.1]
            · apply List.mem_append.mpr
              right
              apply List.mem_flatten.mpr
              refine ⟨(okayList c).map (fun dp => nm :: dp), ?_, ?_⟩
              · apply List.mem_map.mpr
                refine ⟨(nm, c), ?_, rfl⟩
                apply List.mem_filter.mpr
                refine ⟨hcmem, ?_⟩
                have hdir : c.isDir = true := by
                  apply isDirAt_imp_isDir c rest
                  rw [pathOkay] at hpo
                  simp only [Bool.and_eq_true] at hpo
                  exact hpo.1.1.1
                rw [recurseCond]
                simp [hign, hcown, hdir]
              · apply List.mem_map.mpr
                exact ⟨rest, (hIH rest).mpr hpo, rfl⟩

theorem okayList_nodup (n : FNode) : WFfs n = true → (okayList n).Nodup := by
  induction n using fnode_strong_ind with
  | hfile d =>
    intro hwf
    rw [okayList_file]
    exact List.nodup_nil
  | hdir es ih =>
    intro hwf
    have hnames := WFfs_dir_names es hwf
    have hinj := List.inj_on_of_nodup_map hnames
    by_cases hown : (entryLookup es "package.json").isSome
    · rw [okayList_dir_stop es hown]
      simp
    · rw [okayList_dir_descend2 es hown]
      apply List.Nodup.append
      · apply List.Nodup.map_on
        · intro x hx y hy heq
          simp at heq
          exact hinj (List.mem_of_mem_filter hx) (List.mem_of_mem_filter hy) heq
        · exact List.Nodup.filter emitCond (List.Nodup.of_map Prod.fst hnames)
      · rw [List.nodup_flatten]
        constructor
        · intro l hl
          rcases List.mem_map.mp hl with ⟨e, he, heq⟩
          rw [← heq]
          apply List.Nodup.map
          · intro a b hab
            simpa using hab
          · exact ih e (List.mem_of_mem_filter he)
              (WFfs_dir_entry es hwf e (List.mem_of_mem_filter he))
        · rw [List.pairwise_map]
          have h2 : es.Pairwise (fun a b => a.1 ≠ b.1) := List.pairwise_map.mp hnames
          have h3 : (es.filter recurseCond).Pairwise (fun a b => a.1 ≠ b.1) :=
            List.Pairwise.sublist (List.filter_sublist es) h2
          apply h3.imp
          intro a b hab
          intro x hxa hxb
          rcases List.mem_map.mp hxa with ⟨da, hda, heqa⟩
          rcases List.mem_map.mp hxb with ⟨db, hdb, heqb⟩
          rw [← heqa] at heqb
          simp at heqb
          exact hab heqb.1.symm
      · intro x hx1 hx2
        rcases List.mem_map.mp hx1 with ⟨e, he, heq⟩
        rcases List.mem_flatten.mp hx2 with ⟨l, hl, hx3⟩
        rcases List.mem_map.mp hl with ⟨e2, he2, heq2⟩
        rw [← heq2] at hx3
        rcases List.mem_map.mp hx3 with ⟨dp2, hdp2, heq3⟩
        rw [← heq] at heq3
        simp at heq3
        have heF := List.mem_filter.mp he
        have heF2 := List.mem_filter.mp he2
        have heqE : e2 = e := hinj heF2.1 heF.1 heq3.1
        have hc1 := heF.2
        have hc2 := heF2.2
        rw [heqE] at hc2
        rw [emitCond] at hc1
        rw [recurseCond] at hc2
        simp only [Bool.and_eq_true, Bool.not_eq_true'] at hc1 hc2
        rw [hc1.2] at hc2
        simp at hc2

/-! ## Glob matching, modelling filepath.Glob and filepath.Match on Unix -/

/-- One token of a single-component glob pattern. -/
inductive PTok where
  | lit (c : Char)
  | star
  | qmark
  | cls (neg : Bool) (ranges : List (Char × Char))
deriving DecidableEq, Repr

/--
Read one class item, modelling getEsc: fails on an empty rest, a bare
closing bracket or a bare dash, and resolves a backslash escape.
-/
def getEsc : List Char → Option (Char × List Char)
  | [] => none
  | ']' :: _ => none
  | '-' :: _ => none
  | '\\' :: [] => none
  | '\\' :: c :: rest => some (c, rest)
  | c :: rest => some (c, rest)

/-- Parse the ranges of a character class, after the opening bracket and sign. -/
def parseRanges : Nat → List Char → List (Char × Char) → Nat →
    Option (List (Char × Char) × List Char)
  | 0, _, _, _ => none
  | _ + 1, [], _, _ => none
  | fuel + 1, ']' :: rest, acc, nrange =>
    if 0 < nrange then some (acc, rest)
    else none
  | fuel + 1, cs, acc, nrange =>
    match getEsc cs with
    | none => none
    | some (lo, rest1) =>
      match rest1 with
      | '-' :: rest2 =>
        match getEsc rest2 with
        | none => none
        | some (hi, rest3) => parseRanges fuel rest3 (acc ++ [(lo, hi)]) (nrange + 1)
      | _ => parseRanges fuel rest1 (acc ++ [(lo, lo)]) (nrange + 1)

/-- Tokenize a single-component glob pattern; none models ErrBadPattern. -/
def tokenize : Nat → List Char → Option (List PTok)
  | 0, _ => none
  | _ + 1, [] => some []
  | fuel + 1, '*' :: rest => (tokenize fuel rest).map (fun ts => PTok.star :: ts)
  | fuel + 1, '?' :: rest => (tokenize fuel rest).map (fun ts => PTok.qmark :: ts)
  | fuel + 1, '[' :: rest =>
    let signed : Bool × List Char :=
      match rest with
      | '^' :: r => (true, r)
      | _ => (false, rest)
    match parseRanges fuel signed.2 [] 0 with
    | none => none
    | some (ranges, rest2) => (tokenize fuel rest2).map (fun ts => PTok.cls signed.1 ranges :: ts)
  | _ + 1, '\\' :: [] => none
  | fuel + 1, '\\' :: c :: rest => (tokenize fuel rest).map (fun ts => PTok.lit c :: ts)
  | fuel + 1, c :: rest => (tokenize fuel rest).map (fun ts => PTok.lit c :: ts)

def patToks (s : String) : Option (List PTok) := tokenize (s.length + 1) s.toList

/-- Is a single-component pattern syntactically valid? -/
def patOk (s : String) : Bool := (patToks s).isSome

def inClass (neg : Bool) (rs : List (Char × Char)) (c : Char) : Bool :=
  let hit := rs.any (fun r => r.1 ≤ c && c ≤ r.2)
  if neg then !hit else hit

/-- Token-list matcher with explicit fuel; star tries both continuations. -/
def matchToks : Nat → List PTok → List Char → Bool
  | 0, _, _ => false
  | _ + 1, [], [] => true
  | _ + 1, [], _ :: _ => false
  | fuel + 1, PTok.lit c :: ts, s =>
    match s with
    | [] => false
    | c2 :: s2 => c == c2 && matchToks fuel ts s2
  | fuel + 1, PTok.qmark :: ts, s =>
    match s with
    | [] => false
    | _ :: s2 => matchToks fuel ts s2
  | fuel + 1, PTok.cls neg rs :: ts, s =>
    match s with
    | [] => false
    | c2 :: s2 => inClass neg rs c2 && matchToks fuel ts s2
  | fuel + 1, PTok.star :: ts, s =>
    matchToks fuel ts s ||
      (match s with
       | [] => false
       | _ :: s2 => matchToks fuel (PTok.star :: ts) s2)

/-- Single-component match; none models ErrBadPattern. -/
def patMatch (pat : String) (name : String) : Option Bool :=
  match patToks pat with
  | none => none
  | some ts => some (matchToks (ts.length + name.length + 1) ts name.toList)

/-- Expand a pattern path against the filesystem, component by component. -/
def globExpand (cur : FPath) (node : FNode) : List String → List FPath
  | [] => [cur]
  | seg :: rest =>
    match node with
    | .file _ => []
    | .dir es =>
      es.flatMap (fun e =>
        if (patMatch seg e.1).getD false then globExpand (cur ++ [e.1]) e.2 rest else [])

/--
Model of filepath.Glob over the rooted filesystem: the pattern syntax is
validated up front (none models ErrBadPattern, as in Go 1.16 and later);
expansion returns only existing paths, files or directories alike. Go
sorts the matches while this model keeps directory-entry order; every
theorem below about glob results is order-insensitive.
-/
def glob (fs : FNode) (patPath : List String) : Option (List FPath) :=
  if patPath.all patOk then some (globExpand [] fs patPath) else none

/-! ## Path joining, modelling filepath.Join followed by Clean -/

/--
Append one component to a cleaned path. Empty and dot components vanish and
a dotdot component removes the last component; the model assumes the result
never escapes above the search root.
-/
def joinComp (base : FPath) (c : String) : FPath :=
  if c = "" || c = "." then base
  else if c = ".." then base.dropLast
  else base ++ [c]

/-- Split a character list at every occurrence of a separator character. -/
def splitChars (sep : Char) : List Char → List (List Char)
  | [] => [[]]
  | c :: rest =>
    match splitChars sep rest with
    | [] => [[]]
    | cur :: parts => if c == sep then [] :: cur :: parts else (c :: cur) :: parts

/-- Model of filepath.Join(base, rel) for a slash-separated relative string. -/
def joinRel (base : FPath) (rel : String) : FPath :=
  ((splitChars '/' rel.toList).map (fun cs => String.mk cs)).foldl joinComp base

/-- Model of filepath.Dir for a path inside the searched tree. -/
def dirOfPath (p : FPath) : FPath := p.dropLast

/-! ## ScriptExtractor: extractScriptsFromPackageJSON of the concurrent iteration -/

/-- A discovered script entry, translated from the NpmScript struct. -/
structure NpmScript where
  packageName : String
  scriptName : String
  command : String
  absolutePath : FPath
deriving DecidableEq, Repr

/--
One observable action of an extraction task: a batch of scripts sent on the
results channel, or a runtime panic of the unchecked command.(string) type
assertion, which crashes the whole program.
-/
inductive ExtractEvent where
  | batch (scripts : List NpmScript)
  | panicked
deriving DecidableEq, Repr

/--
Field access on a decoded JSON object, modelling the Go map built by
json.Unmarshal: with duplicate keys the last occurrence wins.
-/
def jLookup (fields : List (String × GoVal)) (k : String) : Option GoVal :=
  fields.foldl (fun acc f => if f.1 == k then some f.2 else acc) none

/--
Open, read and decode a manifest, modelling the first block of
extractScriptsFromPackageJSON: any failure (missing file, directory,
non-JSON content, parse error, non-object document) yields none.
-/
def readManifestDoc (fs : FNode) (p : FPath) : Option (List (String × GoVal)) :=
  match fs.lookup p with
  | some (.file (.jsonFile (some doc))) => some doc
  | _ => none

/-- The package name: the name field when it is a string, unknown otherwise. -/
def packageNameOf (doc : List (String × GoVal)) : String :=
  match jLookup doc "name" with
  | some (.vstr s) => s
  | _ => "unknown"

/--
Check every value of the scripts map with the unchecked command.(string)
type assertion: none models the panic raised on the first non-string value.
-/
def allStringValues : List (String × GoVal) → Option (List (String × String))
  | [] => some []
  | (k, GoVal.vstr s) :: rest => (allStringValues rest).map (fun l => (k, s) :: l)
  | (_, _) :: _ => none

/-- Outcome of the scripts block of extractScriptsFromPackageJSON. -/
inductive ScriptsRes where
  | noBatch
  | panicked
  | batch (entries : List (String × String))
deriving DecidableEq, Repr

def scriptsResOf (doc : List (String × GoVal)) : ScriptsRes :=
  match jLookup doc "scripts" with
  | some (.vmap flds) =>
    match allStringValues flds with
    | some entries => ScriptsRes.batch entries
    | none => ScriptsRes.panicked
  | _ => ScriptsRes.noBatch

/--
The workspaces type switch of the source: a value of dynamic type []string
yields its members, the object form yields the string members of its
packages array, anything else yields nothing. Because json.Unmarshal stores
JSON arrays as []any (constructor varr), the varrStr branch is unreachable
on decoded documents.
-/
def workspacePatternsOf (ws : Option GoVal) : List String :=
  match ws with
  | some (.varrStr xs) => xs
  | some (.vmap fields) =>
    match jLookup fields "packages" with
    | some (.varr pkgs) =>
      pkgs.filterMap (fun pkg =>
        match pkg with
        | GoVal.vstr s => some s
        | _ => none)
    | _ => []
  | _ => []

/-- Model of strings.ContainsAny(pattern, star-question-bracket). -/
def isGlobPattern (s : String) : Bool :=
  s.toList.any (fun c => c == '*' || c == '?' || c == '[')

/--
One check-then-insert step of the knownWorkspaces set: an already-known
member path is skipped; otherwise it is recorded and, when the manifest
exists on disk, queued for spawning.
-/
def wsSpawnStep (fs : FNode) (st : List FPath × List FPath) (wpj : FPath) :
    List FPath × List FPath :=
  if st.1.contains wpj then st
  else (st.1 ++ [wpj], if pathExists fs wpj then st.2 ++ [wpj] else st.2)

/--
The workspaces pattern loop of extractScriptsFromPackageJSON: glob patterns
expand through the filesystem (an invalid pattern is skipped), literal
patterns resolve directly; the local knownWorkspaces set deduplicates the
member manifest paths of this one expansion.
-/
def wsPatternStep (fs : FNode) (dir : FPath) (st : List FPath × List FPath)
    (workspacePattern : String) : List FPath × List FPath :=
  let workspacePath := joinRel dir workspacePattern
  if isGlobPattern workspacePattern then
    match glob fs workspacePath with
    | none => st
    | some ms =>
      ms.foldl (fun st2 m => wsSpawnStep fs st2 (m ++ ["package.json"])) st
  else
    wsSpawnStep fs st (workspacePath ++ ["package.json"])

def wsSpawnFold (fs : FNode) (dir : FPath) (patterns : List String) : List FPath :=
  (patterns.foldl (wsPatternStep fs dir) ([], [])).2

/-! ## The pnpm workspace-manifest resolver (locatePnpmWorkspaces) -/

/--
Open and parse the pnpm workspace file, yielding its packages list; none
models an open or parse failure.
-/
def readYamlPackages (fs : FNode) (p : FPath) : Option (List String) :=
  match fs.lookup p with
  | some (.file (.yamlFile (some pk))) => some pk
  | _ => none

/--
Separate the declared patterns into includes and excludes: each pattern is
trimmed, a leading bang marks an exclusion (bang stripped), and the pattern
joins onto the workspace root.
-/
def isSpaceChar (c : Char) : Bool :=
  c == ' ' || c == '\t' || c == '\n' || c == '\r'

/-- Model of strings.TrimSpace for the common whitespace characters. -/
def trimSpace (s : String) : String :=
  String.mk (((s.toList.dropWhile isSpaceChar).reverse.dropWhile isSpaceChar).reverse)

def startsWithBang (s : String) : Bool :=
  match s.toList with
  | '!' :: _ => true
  | _ => false

/-- Model of strings.TrimPrefix(s, bang) after a positive prefix test. -/
def dropBang (s : String) : String :=
  match s.toList with
  | '!' :: rest => String.mk rest
  | _ => s

def splitWsPatterns (root : FPath) (pk : List String) : List FPath × List FPath :=
  pk.foldl (fun acc pattern =>
    let trimmed := trimSpace pattern
    if startsWithBang trimmed then
      (acc.1, acc.2 ++ [joinRel root (dropBang trimmed)])
    else
      (acc.1 ++ [joinRel root trimmed], acc.2)) ([], [])

def insertIfAbsent (acc : List FPath) (m : FPath) : List FPath :=
  if acc.contains m then acc else acc ++ [m]

/--
The include loop: each pattern expands by glob and every match enters the
match set (glob returns only existing paths, and the source inserts a match
whether it is a directory or not); an invalid pattern aborts the whole
resolution with an error.
-/
def processIncludes (fs : FNode) : List FPath → List FPath → Option (List FPath)
  | [], acc => some acc
  | pat :: rest, acc =>
    match glob fs pat with
    | none => none
    | some ms => processIncludes fs rest (ms.foldl insertIfAbsent acc)

/--
The exclude loop: each pattern expands by glob and its exact matches leave
the match set; an invalid pattern aborts the whole resolution with an
error.
-/
def processExcludes (fs : FNode) : List FPath → List FPath → Option (List FPath)
  | [], acc => some acc
  | pat :: rest, acc =>
    match glob fs pat with
    | none => none
    | some ms => processExcludes fs rest (acc.filter (fun m => !ms.contains m))

/--
locatePnpmWorkspaces: read the workspace file next to the given root,
split the patterns, expand includes, remove excludes. none models the error
return of the source, taken on a missing or unparseable workspace file and
on any invalid pattern. The source drains its match set by iterating a Go
map, whose order is arbitrary; this model keeps insertion order, and every
theorem below about the result is order-insensitive.
-/
def locatePnpmWorkspaces (fs : FNode) (root : FPath) : Option (List FPath) :=
  match readYamlPackages fs (root ++ ["pnpm-workspace.yaml"]) with
  | none => none
  | some pk =>
    match processIncludes fs (splitWsPatterns root pk).1 [] with
    | none => none
    | some included => processExcludes fs (splitWsPatterns root pk).2 included

/--
The pnpm branch of extractScriptsFromPackageJSON: when a workspace file
sits next to the manifest and resolution succeeds, every member whose
manifest exists is queued for spawning, skipping the current manifest
itself; a resolution error contributes nothing.
-/
def pnpmSpawns (fs : FNode) (filePath : FPath) : List FPath :=
  let dirname := dirOfPath filePath
  if pathExists fs (dirname ++ ["pnpm-workspace.yaml"]) then
    match locatePnpmWorkspaces fs dirname with
    | some result =>
      result.filterMap (fun m =>
        let wpj := m ++ ["package.json"]
        if wpj = filePath then none
        else if pathExists fs wpj then some wpj else none)
    | none => []
  else []

/--
Events emitted by one visit of extractScriptsFromPackageJSON before the
isLeaf check: a batch per scripts map (sent even when the map is empty), a
panic event when a script value is not a string, nothing when the manifest
does not parse or has no scripts map.
-/
def extractEvents0 (fs : FNode) (filePath : FPath) : List ExtractEvent :=
  match readManifestDoc fs filePath with
  | none => []
  | some doc =>
    match scriptsResOf doc with
    | ScriptsRes.batch entries =>
      [ExtractEvent.batch (entries.map (fun e =>
        ⟨packageNameOf doc, e.1, e.2, filePath⟩))]
    | ScriptsRes.panicked => [ExtractEvent.panicked]
    | ScriptsRes.noBatch => []

/-- Does the visit reach the workspace-expansion half of the function? -/
def extractProceeds (fs : FNode) (filePath : FPath) : Bool :=
  match readManifestDoc fs filePath with
  | none => false
  | some doc =>
    match scriptsResOf doc with
    | ScriptsRes.panicked => false
    | _ => true

/--
The member manifests queued by one non-leaf visit: the workspaces patterns
of the manifest expand through wsSpawnFold, and independently the sibling
pnpm workspace file contributes through pnpmSpawns.
-/
def extractChildPaths (fs : FNode) (filePath : FPath) : List FPath :=
  match readManifestDoc fs filePath with
  | none => []
  | some doc =>
    wsSpawnFold fs (dirOfPath filePath) (workspacePatternsOf (jLookup doc "workspaces"))
      ++ pnpmSpawns fs filePath

/--
A leaf extraction task (isLeaf true): it emits its events and, per the
early return of the source, spawns nothing.
-/
def extractLeafTT (fs : FNode) (filePath : FPath) : TTree ExtractEvent :=
  .node (extractEvents0 fs filePath) []

/--
A top-level extraction task (isLeaf false): it emits its events and spawns
one leaf task per member manifest, unless the visit ended early in a parse
failure or a panic. The source writes one recursive function switching on
isLeaf; since every spawned child runs with isLeaf true, the recursion is
one level deep and is embedded here as two functions.
-/
def extractTopTT (fs : FNode) (filePath : FPath) : TTree ExtractEvent :=
  .node (extractEvents0 fs filePath)
    (if extractProceeds fs filePath then
      (extractChildPaths fs filePath).map (fun p => extractLeafTT fs p)
    else [])

/-- extractScriptsFromPackageJSON as a task tree, dispatching on isLeaf. -/
def extractTT (fs : FNode) (isLeaf : Bool) (filePath : FPath) : TTree ExtractEvent :=
  if isLeaf then extractLeafTT fs filePath else extractTopTT fs filePath

/-! ## CatalogBuilder: the whole discovery pipeline -/

/-- The single root task of the filesystem walk. -/
def walkerTask (fs : FNode) : TTree FPath := walkTT fs []

/-- Phase one: run the concurrent walk under a schedule, collecting manifest paths. -/
def discoveredPaths (fs : FNode) (sched : List Nat) : List FPath :=
  runSched sched [walkerTask fs]

/-- One top-level extraction task per discovered manifest path, isLeaf false. -/
def extractionTasks (fs : FNode) (paths : List FPath) : List (TTree ExtractEvent) :=
  paths.map (fun p => extractTT fs false p)

/--
Phase two: run all extraction tasks under a schedule; the emitted events
form the observable outcome of discovery.
-/
def discoveryEvents (fs : FNode) (s1 s2 : List Nat) : List ExtractEvent :=
  runSched s2 (extractionTasks fs (discoveredPaths fs s1))

/-- The catalog: all scripts of all emitted batches, in arrival order. -/
def catalogScripts (evs : List ExtractEvent) : List NpmScript :=
  evs.flatMap (fun ev =>
    match ev with
    | ExtractEvent.batch b => b
    | ExtractEvent.panicked => [])

/-! ## Package-manager inference (inferPackageManager) -/

/--
A general filesystem path for the lockfile walk, which unlike discovery can
leave the searched tree: an absolute or relative flag plus components.
filepath.Dir drops the last component; on an exhausted path it yields the
filesystem root (slash) when absolute and the dot path when relative, each
being its own parent.
-/
structure GPath where
  absolute : Bool
  comps : List String
deriving DecidableEq, Repr

def gDir (p : GPath) : GPath := ⟨p.absolute, p.comps.dropLast⟩

/-- The dot path, at which the loop of the source stops. -/
def relRoot : GPath := ⟨false, []⟩

def knownLockFiles : List (String × String) :=
  [("package-lock.json", "npm"), ("yarn.lock", "yarn"), ("pnpm-lock.yaml", "pnpm"),
   ("bun.lock", "bun"), ("bun.lockb", "bun")]

/--
Check one directory for the known lockfiles. The source iterates a Go map,
whose order is arbitrary; this model fixes the declaration order, which is
irrelevant to the theorems below (they use lockfile-free environments).
-/
def lockAt (locks : GPath → String → Bool) (dir : GPath) : Option String :=
  knownLockFiles.foldl
    (fun acc e =>
      match acc with
      | some _ => acc
      | none => if locks dir e.1 then some e.2 else none) none

/--
The upward walk of inferPackageManager with explicit fuel: the loop runs
while dir is not the dot path, returning the first lockfile owner found and
npm when the dot path is reached; none models an unfinished loop.
-/
def inferPMLoop (locks : GPath → String → Bool) : Nat → GPath → Option String
  | 0, _ => none
  | fuel + 1, dir =>
    if dir = relRoot then some "npm"
    else
      match lockAt locks dir with
      | some pm => some pm
      | none => inferPMLoop locks fuel (gDir dir)

/-- inferPackageManager: start the walk at the directory of the manifest. -/
def inferPackageManager (locks : GPath → String → Bool) (fuel : Nat) (filePath : GPath) :
    Option String :=
  inferPMLoop locks fuel (gDir filePath)

/-! ## Example filesystems used by the concrete theorems -/

/-- A manifest with one script, declaring its members through the object form. -/
def manRoot1 : FNode := .file (.jsonFile (some
  [("name", GoVal.vstr "root"),
   ("scripts", GoVal.vmap [("a", GoVal.vstr "x")]),
   ("workspaces", GoVal.vmap [("packages", GoVal.varr [GoVal.vstr "pkgs/m"])])]))

/-- A member manifest with one script. -/
def manM1 : FNode := .file (.jsonFile (some
  [("name", GoVal.vstr "m"),
   ("scripts", GoVal.vmap [("b", GoVal.vstr "y")])]))

/--
A tree whose root manifest references the member pkgs/m both through its
workspaces field and through a sibling pnpm workspace file.
-/
def exFS1 : FNode :=
  .dir [("package.json", manRoot1),
        ("pnpm-workspace.yaml", .file (.yamlFile (some ["pkgs/*"]))),
        ("pkgs", .dir [("m", .dir [("package.json", manM1)])])]

/-- A minimal manifest without scripts or workspaces. -/
def manPlain (nm : String) : FNode := .file (.jsonFile (some [("name", GoVal.vstr nm)]))

/-- A tree with a manifest at a and a further manifest below it at a/b. -/
def exFS2 : FNode :=
  .dir [("a", .dir [("package.json", manPlain "a"),
                    ("b", .dir [("package.json", manPlain "b")])])]

/-- A root manifest declaring its workspaces in the plain array form. -/
def exFS3arr : FNode :=
  .dir [("package.json", .file (.jsonFile (some
          [("name", GoVal.vstr "r"),
           ("scripts", GoVal.vmap [("s", GoVal.vstr "c")]),
           ("workspaces", GoVal.varr [GoVal.vstr "m"])]))),
        ("m", .dir [("package.json", .file (.jsonFile (some
          [("name", GoVal.vstr "m"),
           ("scripts", GoVal.vmap [("t", GoVal.vstr "d")])])))])]

/-- The same tree with the workspaces declared in the object form. -/
def exFS3obj : FNode :=
  .dir [("package.json", .file (.jsonFile (some
          [("name", GoVal.vstr "r"),
           ("scripts", GoVal.vmap [("s", GoVal.vstr "c")]),
           ("workspaces", GoVal.vmap [("packages", GoVal.varr [GoVal.vstr "m"])])]))),
        ("m", .dir [("package.json", .file (.jsonFile (some
          [("name", GoVal.vstr "m"),
           ("scripts", GoVal.vmap [("t", GoVal.vstr "d")])])))])]

/-- A root manifest whose workspaces declaration resolves to its own directory. -/
def exFS4 : FNode :=
  .dir [("package.json", .file (.jsonFile (some
    [("name", GoVal.vstr "root4"),
     ("scripts", GoVal.vmap [("build", GoVal.vstr "x")]),
     ("workspaces", GoVal.vmap [("packages", GoVal.varr [GoVal.vstr "."])])])))]

/-- A manifest whose scripts map carries a non-string value. -/
def exFS5 : FNode :=
  .dir [("package.json", .file (.jsonFile (some
    [("name", GoVal.vstr "p"),
     ("scripts", GoVal.vmap [("a", GoVal.vnum 1)])])))]

/--
A workspace whose pnpm patterns mix a valid pattern with matches and a
syntactically invalid one.
-/
def exFS7 : FNode :=
  .dir [("package.json", manPlain "root7"),
        ("pnpm-workspace.yaml", .file (.yamlFile (some ["apps/*", "bad["]))),
        ("apps", .dir [("a", .dir [("package.json", manPlain "appa")])])]

/-- A workspace declaring an include pattern and an exclusion pattern. -/
def exFS8 : FNode :=
  .dir [("pnpm-workspace.yaml", .file (.yamlFile (some ["apps/*", "!apps/legacy"]))),
        ("apps", .dir [("a", .dir [("package.json", manPlain "appa")]),
                       ("legacy", .dir [("package.json", manPlain "old")])])]

/-- A manifest carrying two scripts. -/
def exFS9 : FNode :=
  .dir [("package.json", .file (.jsonFile (some
    [("name", GoVal.vstr "nine"),
     ("scripts", GoVal.vmap [("build", GoVal.vstr "tsc"), ("test", GoVal.vstr "jest")])])))]

/-- A tree with two independent package directories. -/
def exFS10 : FNode :=
  .dir [("x", .dir [("package.json", .file (.jsonFile (some
          [("name", GoVal.vstr "x"),
           ("scripts", GoVal.vmap [("s1", GoVal.vstr "c1")])])))]),
        ("y", .dir [("package.json", .file (.jsonFile (some
          [("name", GoVal.vstr "y"),
           ("scripts", GoVal.vmap [("s2", GoVal.vstr "c2")])])))])]

/-! ## Local deduplication of the workspaces expansion -/

theorem contains_iff_mem {α : Type} [BEq α] [LawfulBEq α] (l : List α) (a : α) :
    l.contains a = true ↔ a ∈ l := by
  simp [List.contains]

/--
Invariant of the knownWorkspaces loop: the spawn list has no duplicates and
every spawned path has been recorded as known.
-/
def wsInv (st : List FPath × List FPath) : Prop :=
  st.2.Nodup ∧ ∀ x ∈ st.2, x ∈ st.1

theorem wsInv_init : wsInv ([], []) := by
  constructor
  · exact List.nodup_nil
  · intro x hx
    simp at hx

theorem wsInv_known_mono (fs : FNode) (st : List FPath × List FPath) (wpj : FPath) :
    st.1 ⊆ (wsSpawnStep fs st wpj).1 := by
  rw [wsSpawnStep]
  by_cases hc : st.1.contains wpj = true
  · rw [if_pos hc]
    exact fun _ hx => hx
  · rw [if_neg hc]
    intro x hx
    exact List.mem_append_left _ hx

theorem wsSpawnStep_inv (fs : FNode) (st : List FPath × List FPath) (wpj : FPath)
    (h : wsInv st) : wsInv (wsSpawnStep fs st wpj) := by
  rw [wsSpawnStep]
  by_cases hc : st.1.contains wpj = true
  · rw [if_pos hc]
    exact h
  · rw [if_neg hc]
    have hnm : wpj ∉ st.2 := by
      intro hmem
      exact hc ((contains_iff_mem st.1 wpj).mpr (h.2 wpj hmem))
    constructor
    · by_cases he : pathExists fs wpj = true
      · rw [if_pos he]
        apply List.Nodup.append h.1 (by simp)
        intro x hx hx2
        simp at hx2
        rw [hx2] at hx
        exact hnm hx
      · rw [if_neg he]
        exact h.1
    · intro x hx
      by_cases he : pathExists fs wpj = true
      · rw [if_pos he] at hx
        rcases List.mem_append.mp hx with h1 | h2
        · exact List.mem_append_left _ (h.2 x h1)
        · simp at h2
          rw [h2]
          simp
      · rw [if_neg he] at hx
        exact List.mem_append_left _ (h.2 x hx)

theorem wsSpawnStep_foldl_inv (fs : FNode) (ms : List FPath) :
    ∀ st : List FPath × List FPath, wsInv st →
      wsInv (ms.foldl (fun st2 m => wsSpawnStep fs st2 (m ++ ["package.json"])) st) := by
  induction ms with
  | nil => intro st h; exact h
  | cons m rest ih =>
    intro st h
    exact ih _ (wsSpawnStep_inv fs st (m ++ ["package.json"]) h)

theorem wsPatternStep_inv (fs : FNode) (dir : FPath) (st : List FPath × List FPath)
    (pat : String) (h : wsInv st) : wsInv (wsPatternStep fs dir st pat) := by
  rw [wsPatternStep]
  by_cases hg : isGlobPattern pat = true
  · rw [if_pos hg]
    cases hglob : glob fs (joinRel dir pat) with
    | none => exact h
    | some ms => exact wsSpawnStep_foldl_inv fs ms st h
  · rw [if_neg hg]
    exact wsSpawnStep_inv fs st _ h

/--
The knownWorkspaces check-then-insert makes the spawned member list of one
workspaces expansion duplicate-free: per manifest, each member manifest
path is queued at most once however many patterns match it.
-/
theorem wsSpawnFold_nodup (fs : FNode) (dir : FPath) (patterns : List String) :
    (wsSpawnFold fs dir patterns).Nodup := by
  rw [wsSpawnFold]
  have key : ∀ st : List FPath × List FPath, wsInv st →
      wsInv (patterns.foldl (wsPatternStep fs dir) st) := by
    induction patterns with
    | nil => intro st h; exact h
    | cons pat rest ih =>
      intro st h
      exact ih _ (wsPatternStep_inv fs dir st pat h)
  exact (key ([], []) wsInv_init).1

/-! ## Behaviour of the two pattern-error policies -/

theorem wsPatternStep_invalid (fs : FNode) (dir : FPath) (st : List FPath × List FPath)
    (pat : String) (hg : isGlobPattern pat = true)
    (hbad : glob fs (joinRel dir pat) = none) : wsPatternStep fs dir st pat = st := by
  rw [wsPatternStep]
  simp only [hg, if_pos]
  rw [hbad]

theorem wsSpawnFold_skips_invalid (fs : FNode) (dir : FPath) (patterns : List String) :
    wsSpawnFold fs dir patterns =
      wsSpawnFold fs dir (patterns.filter
        (fun p => !(isGlobPattern p && (glob fs (joinRel dir p)).isNone))) := by
  rw [wsSpawnFold, wsSpawnFold]
  have key : ∀ st : List FPath × List FPath,
      patterns.foldl (wsPatternStep fs dir) st =
        (patterns.filter
          (fun p => !(isGlobPattern p && (glob fs (joinRel dir p)).isNone))).foldl
          (wsPatternStep fs dir) st := by
    induction patterns with
    | nil => intro st; rfl
    | cons p rest ih =>
      intro st
      by_cases hk : (!(isGlobPattern p && (glob fs (joinRel dir p)).isNone)) = true
      · rw [List.filter_cons, if_pos hk, List.foldl_cons, List.foldl_cons, ih]
      · rw [List.filter_cons, if_neg hk, List.foldl_cons]
        simp only [Bool.not_eq_true', Bool.not_eq_false] at hk
        simp only [Bool.and_eq_true, Option.isNone_iff_eq_none] at hk
        rw [wsPatternStep_invalid fs dir st p hk.1 hk.2, ih]
  rw [key ([], [])]

theorem processIncludes_invalid (fs : FNode) (pats : List FPath) (pat : FPath)
    (hmem : pat ∈ pats) (hbad : glob fs pat = none) :
    ∀ acc, processIncludes fs pats acc = none := by
  induction pats with
  | nil => simp at hmem
  | cons p rest ih =>
    intro acc
    rw [processIncludes]
    cases hg : glob fs p with
    | none => rfl
    | some ms =>
      rcases List.mem_cons.mp hmem with heq | hmem2
      · rw [heq] at hbad
        rw [hg] at hbad
        simp at hbad
      · exact ih hmem2 _

theorem locatePnpm_aborts (fs : FNode) (root : FPath) (pk : List String) (pat : FPath)
    (hy : readYamlPackages fs (root ++ ["pnpm-workspace.yaml"]) = some pk)
    (hmem : pat ∈ (splitWsPatterns root pk).1) (hbad : glob fs pat = none) :
    locatePnpmWorkspaces fs root = none := by
  rw [locatePnpmWorkspaces, hy]
  have h2 := processIncludes_invalid fs ((splitWsPatterns root pk).1) pat hmem hbad []
  simp [h2]

/-! ## Characterizing the pnpm resolver on valid patterns -/

theorem insertFold_mem (ms : List FPath) :
    ∀ (acc : List FPath) (x : FPath),
      x ∈ ms.foldl insertIfAbsent acc ↔ x ∈ acc ∨ x ∈ ms := by
  induction ms with
  | nil => intro acc x; simp
  | cons m rest ih =>
    intro acc x
    rw [List.foldl_cons, ih, insertIfAbsent]
    by_cases hc : acc.contains m = true
    · rw [if_pos hc]
      have hm := (contains_iff_mem acc m).mp hc
      simp only [List.mem_cons]
      constructor
      · rintro (h1 | h2)
        · exact Or.inl h1
        · exact Or.inr (Or.inr h2)
      · rintro (h1 | h2 | h3)
        · exact Or.inl h1
        · rw [h2]; exact Or.inl hm
        · exact Or.inr h3
    · rw [if_neg hc]
      simp only [List.mem_append, List.mem_cons, List.not_mem_nil, or_false]
      tauto

theorem insertFold_nodup (ms : List FPath) :
    ∀ acc : List FPath, acc.Nodup → (ms.foldl insertIfAbsent acc).Nodup := by
  induction ms with
  | nil => intro acc h; exact h
  | cons m rest ih =>
    intro acc h
    rw [List.foldl_cons]
    apply ih
    rw [insertIfAbsent]
    by_cases hc : acc.contains m = true
    · rw [if_pos hc]; exact h
    · rw [if_neg hc]
      apply List.Nodup.append h (by simp)
      intro x hx hx2
      simp at hx2
      rw [hx2] at hx
      exact hc ((contains_iff_mem acc m).mpr hx)

theorem processIncludes_ok (fs : FNode) (pats : List FPath) :
    ∀ acc : List FPath, (∀ pat ∈ pats, (glob fs pat).isSome = true) →
      ∃ l, processIncludes fs pats acc = some l ∧
        (∀ x, x ∈ l ↔ x ∈ acc ∨ ∃ pat ∈ pats, x ∈ (glob fs pat).getD []) ∧
        (acc.Nodup → l.Nodup) := by
  induction pats with
  | nil =>
    intro acc hval
    refine ⟨acc, rfl, ?_, fun h => h⟩
    intro x
    simp
  | cons p rest ih =>
    intro acc hval
    cases hg : glob fs p with
    | none =>
      exfalso
      have := hval p (List.mem_cons_self p rest)
      rw [hg] at this
      simp at this
    | some ms =>
      obtain ⟨l, hl, hmem, hnd⟩ := ih (ms.foldl insertIfAbsent acc)
        (fun pat h => hval pat (List.mem_cons_of_mem p h))
      refine ⟨l, ?_, ?_, ?_⟩
      · rw [processIncludes, hg]
        exact hl
      · intro x
        rw [hmem x, insertFold_mem]
        constructor
        · rintro ((h1 | h2) | ⟨pat, hp, hx⟩)
          · exact Or.inl h1
          · refine Or.inr ⟨p, List.mem_cons_self p rest, ?_⟩
            rw [hg]
            exact h2
          · exact Or.inr ⟨pat, List.mem_cons_of_mem p hp, hx⟩
        · rintro (h1 | ⟨pat, hp, hx⟩)
          · exact Or.inl (Or.inl h1)
          · rcases List.mem_cons.mp hp with heq | hp2
            · rw [heq, hg] at hx
              exact Or.inl (Or.inr hx)
            · exact Or.inr ⟨pat, hp2, hx⟩
      · intro hacc
        exact hnd (insertFold_nodup ms acc hacc)

theorem processExcludes_ok (fs : FNode) (pats : List FPath) :
    ∀ acc : List FPath, (∀ pat ∈ pats, (glob fs pat).isSome = true) →
      ∃ l, processExcludes fs pats acc = some l ∧
        (∀ x, x ∈ l ↔ x ∈ acc ∧ ¬∃ pat ∈ pats, x ∈ (glob fs pat).getD []) ∧
        (acc.Nodup → l.Nodup) := by
  induction pats with
  | nil =>
    intro acc hval
    refine ⟨acc, rfl, ?_, fun h => h⟩
    intro x
    simp
  | cons p rest ih =>
    intro acc hval
    cases hg : glob fs p with
    | none =>
      exfalso
      have := hval p (List.mem_cons_self p rest)
      rw [hg] at this
      simp at this
    | some ms =>
      obtain ⟨l, hl, hmem, hnd⟩ := ih (acc.filter (fun m => !ms.contains m))
        (fun pat h => hval pat (List.mem_cons_of_mem p h))
      refine ⟨l, ?_, ?_, ?_⟩
      · rw [processExcludes, hg]
        exact hl
      · intro x
        rw [hmem x]
        rw [List.mem_filter]
        constructor
        · rintro ⟨⟨hacc, hnc⟩, hnr⟩
          refine ⟨hacc, ?_⟩
          rintro ⟨pat, hp, hx⟩
          rcases List.mem_cons.mp hp with heq | hp2
          · rw [heq, hg] at hx
            rw [(contains_iff_mem ms x).mpr hx] at hnc
            simp at hnc
          · exact hnr ⟨pat, hp2, hx⟩
        · rintro ⟨hacc, hnone⟩
          refine ⟨⟨hacc, ?_⟩, ?_⟩
          · by_cases hmx : x ∈ ms
            · exfalso
              apply hnone
              refine ⟨p, List.mem_cons_self p rest, ?_⟩
              rw [hg]
              exact hmx
            · simp only [Bool.not_eq_true']
              by_cases hcx : ms.contains x = true
              · exact absurd ((contains_iff_mem ms x).mp hcx) hmx
              · exact Bool.eq_false_iff.mpr hcx
          · rintro ⟨pat, hp, hx⟩
            exact hnone ⟨pat, List.mem_cons_of_mem p hp, hx⟩
      · intro hacc
        exact hnd (List.Nodup.filter _ hacc)

/-! ## Behaviour of the lockfile walk -/

theorem gDir_absolute (d : GPath) : (gDir d).absolute = d.absolute := rfl

theorem inferPMLoop_abs_none (fuel : Nat) (d : GPath) (hd : d.absolute = true) :
    inferPMLoop (fun _ _ => false) fuel d = none := by
  induction fuel generalizing d with
  | zero => rfl
  | succ fuel ih =>
    rw [inferPMLoop]
    have hne : ¬(d = relRoot) := by
      intro heq
      rw [heq] at hd
      simp [relRoot] at hd
    rw [if_neg hne]
    simp only [show lockAt (fun _ _ => false) d = none from rfl]
    exact ih (gDir d) hd

theorem inferPMLoop_rel_terminates (locks : GPath → String → Bool) :
    ∀ (n : Nat) (d : GPath), d.absolute = false → d.comps.length ≤ n →
      ∃ pm, inferPMLoop locks (n + 1) d = some pm := by
  intro n
  induction n with
  | zero =>
    intro d habs hlen
    have hd : d = relRoot := by
      obtain ⟨a, cs⟩ := d
      simp at habs
      simp at hlen
      rw [relRoot, habs, hlen]
    rw [hd, inferPMLoop, if_pos rfl]
    exact ⟨"npm", rfl⟩
  | succ n ih =>
    intro d habs hlen
    rw [inferPMLoop]
    by_cases hroot : d = relRoot
    · rw [if_pos hroot]
      exact ⟨"npm", rfl⟩
    · rw [if_neg hroot]
      cases hl : lockAt locks d with
      | some pm =>
        refine ⟨pm, ?_⟩
        simp only [hl]
      | none =>
        simp only [hl]
        apply ih (gDir d) (by rw [gDir_absolute]; exact habs)
        have hne : d.comps ≠ [] := by
          intro hnil
          apply hroot
          obtain ⟨a, cs⟩ := d
          simp at habs hnil
          rw [relRoot, habs, hnil]
        have hpos : 0 < d.comps.length := List.length_pos.mpr hne
        have hdrop : (gDir d).comps.length = d.comps.length - 1 := by
          show d.comps.dropLast.length = d.comps.length - 1
          exact List.length_dropLast d.comps
        omega

/-! ## Exact script extraction -/

theorem allStringValues_map (entries : List (String × String)) :
    allStringValues (entries.map (fun e => (e.1, GoVal.vstr e.2))) = some entries := by
  induction entries with
  | nil => rfl
  | cons e rest ih =>
    obtain ⟨k, v⟩ := e
    rw [List.map_cons]
    show (allStringValues (rest.map (fun e => (e.1, GoVal.vstr e.2)))).map _ = _
    rw [ih]
    rfl

/-! ## Determinism helpers -/

theorem catalogScripts_coe_eq (l1 l2 : List ExtractEvent)
    (h : (l1 : Multiset ExtractEvent) = (l2 : Multiset ExtractEvent)) :
    ((catalogScripts l1 : List NpmScript) : Multiset NpmScript) =
      (catalogScripts l2 : List NpmScript) := by
  have hp : l1.Perm l2 := Multiset.coe_eq_coe.mp h
  exact Multiset.coe_eq_coe.mpr (List.Perm.flatMap_right _ hp)

/-! ## Claim theorems -/

/--
C1 (counterexample). There is no global visited-set: on a tree whose root
manifest reaches the member pkgs/m both through its workspaces field and
through a sibling pnpm workspace file, one discovery run extracts the
member manifest twice, so its batch of scripts is emitted twice. This
refutes at-most-once extraction per manifest path.
-/
theorem c1_counterexample :
    (discoveryEvents exFS1 [0] [0, 0, 0]).count
      (ExtractEvent.batch [⟨"m", "b", "y", ["pkgs", "m", "package.json"]⟩]) = 2 := by
  have hw : walkerTask exFS1 = TTree.node [["package.json"]] [] := by
    simp [walkerTask, walkTT, exFS1, manRoot1, entryLookup]
  rw [discoveryEvents, discoveredPaths, hw]
  decide

/--
C1 (amended). Deduplication of member manifests is local to one manifest's
own workspaces-pattern expansion: the per-call knownWorkspaces set makes
the spawned member list of wsSpawnFold duplicate-free, for every
filesystem, base directory and pattern list. No cross-task set exists, so
the at-most-once guarantee holds only within this one expansion.
-/
theorem c1_local_dedup (fs : FNode) (dir : FPath) (patterns : List String) :
    (wsSpawnFold fs dir patterns).Nodup :=
  wsSpawnFold_nodup fs dir patterns

/--
C2 (amended). For wellformed trees the walk finds exactly the manifests of
the okay directories: directories holding a manifest, reachable without
crossing an ignored name and without passing through a directory that
itself holds a manifest. Each such path is emitted exactly once, a
directory with its own manifest is emitted without descending, and no
emitted path crosses an ignored name.
-/
theorem c2_walker_characterization (fs : FNode) (hwf : WFfs fs = true) :
    (∀ x, x ∈ (walkTT fs []).denoteL ↔
      ∃ dp, pathOkay fs dp = true ∧ x = dp ++ ["package.json"]) ∧
    (walkTT fs []).denoteL.Nodup ∧
    (∀ (es : List (String × FNode)) (p : FPath), (entryLookup es "package.json").isSome →
      walkTT (.dir es) p = .node [p ++ ["package.json"]] []) ∧
    (∀ x ∈ (walkTT fs []).denoteL, ∀ comp ∈ x.dropLast, isIgnored comp = false) := by
  have hd := walk_denote fs []
  have hm := mem_okayList fs hwf
  have hchar : ∀ x, x ∈ (walkTT fs []).denoteL ↔
      ∃ dp, pathOkay fs dp = true ∧ x = dp ++ ["package.json"] := by
    intro x
    rw [hd, List.mem_map]
    constructor
    · rintro ⟨dp, hdp, heq⟩
      exact ⟨dp, (hm dp).mp hdp, by rw [← heq]; simp⟩
    · rintro ⟨dp, hok, heq⟩
      exact ⟨dp, (hm dp).mpr hok, by rw [heq]; simp⟩
  refine ⟨hchar, ?_, ?_, ?_⟩
  · rw [hd]
    apply List.Nodup.map ?_ (okayList_nodup fs hwf)
    intro a b hab
    simp only [List.nil_append] at hab
    exact List.append_left_injective _ hab
  · intro es p hsome
    exact walkTT_dir_stop es p hsome
  · intro x hx comp hcomp
    obtain ⟨dp, hok, heq⟩ := (hchar x).mp hx
    rw [heq, List.dropLast_concat] at hcomp
    rw [pathOkay] at hok
    simp only [Bool.and_eq_true, List.all_eq_true] at hok
    have h2 := hok.1.2 comp hcomp
    simp only [Bool.not_eq_true'] at h2
    exact h2

/--
C2 (witness). The characterization instantiated on a concrete wellformed
tree.
-/
theorem c2_walker_characterization_witness :
    (∀ x, x ∈ (walkTT exFS2 []).denoteL ↔
      ∃ dp, pathOkay exFS2 dp = true ∧ x = dp ++ ["package.json"]) ∧
    (walkTT exFS2 []).denoteL.Nodup ∧
    (∀ (es : List (String × FNode)) (p : FPath), (entryLookup es "package.json").isSome →
      walkTT (.dir es) p = .node [p ++ ["package.json"]] []) ∧
    (∀ x ∈ (walkTT exFS2 []).denoteL, ∀ comp ∈ x.dropLast, isIgnored comp = false) :=
  c2_walker_characterization exFS2 (by simp [WFfs, exFS2, manPlain])

/--
C2 (counterexample). The manifest a/b/package.json exists, is reachable
without crossing any ignored directory name, and still is not emitted by
the walk, because its ancestor a is itself a package root: the claim that
every manifest reachable without crossing an ignored-directory boundary is
found is false as stated.
-/
theorem c2_counterexample :
    pathExists exFS2 ["a", "b", "package.json"] = true ∧
    (["a", "b"].all (fun c => !isIgnored c)) = true ∧
    ["a", "b", "package.json"] ∉ (walkTT exFS2 []).denoteL ∧
    (walkTT exFS2 []).denoteL = [["a", "package.json"]] := by
  have hw : (walkTT exFS2 []).denoteL = [["a", "package.json"]] := by
    simp [walkTT, exFS2, manPlain, TTree.denoteL_node, entryLookup, FNode.isDir, isIgnored,
      FNode.hasOwnManifest, ignoredDirs, emitCond, recurseCond]
  refine ⟨by decide, by decide, ?_, hw⟩
  rw [hw]
  decide

/--
C3 (code bug). On a tree where the root manifest declares its workspaces
in the plain JSON array form, extraction yields only the root's own
scripts: the case matching dynamic type []string in the workspaces type
switch can never fire on a json.Unmarshal result, whose arrays have
dynamic type []any. The object form on the identical tree does yield the
member scripts.
-/
theorem c3_array_form_dead :
    (extractTT exFS3arr false ["package.json"]).denoteL
        = [ExtractEvent.batch [⟨"r", "s", "c", ["package.json"]⟩]] ∧
    (extractTT exFS3obj false ["package.json"]).denoteL
        = [ExtractEvent.batch [⟨"r", "s", "c", ["package.json"]⟩],
           ExtractEvent.batch [⟨"m", "t", "d", ["m", "package.json"]⟩]] := by
  constructor
  · show (extractTopTT exFS3arr ["package.json"]).denoteL = _
    have hpr : extractProceeds exFS3arr ["package.json"] = true := by decide
    have hcp : extractChildPaths exFS3arr ["package.json"] = [] := by decide
    rw [extractTopTT, hpr, if_pos rfl, hcp, TTree.denoteL_node]
    simp only [List.map_nil, List.flatten_nil, List.append_nil]
    decide
  · show (extractTopTT exFS3obj ["package.json"]).denoteL = _
    have hpr : extractProceeds exFS3obj ["package.json"] = true := by decide
    have hcp : extractChildPaths exFS3obj ["package.json"] = [["m", "package.json"]] := by
      decide
    rw [extractTopTT, hpr, if_pos rfl, hcp, TTree.denoteL_node]
    simp only [List.map_cons, List.map_nil, extractLeafTT, TTree.denoteL_node]
    decide

/--
C4 (code bug). A workspaces declaration resolving back to the root's own
manifest terminates but duplicates the root's entries: the workspaces
branch lacks the self-reference guard that the pnpm branch has, so the
root manifest is re-extracted as its own member and its batch is emitted
twice.
-/
theorem c4_selfref_duplicate :
    (extractTT exFS4 false ["package.json"]).denoteL.count
      (ExtractEvent.batch [⟨"root4", "build", "x", ["package.json"]⟩]) = 2 := by
  show (extractTopTT exFS4 ["package.json"]).denoteL.count _ = 2
  have hpr : extractProceeds exFS4 ["package.json"] = true := by decide
  have hcp : extractChildPaths exFS4 ["package.json"] = [["package.json"]] := by decide
  rw [extractTopTT, hpr, if_pos rfl, hcp, TTree.denoteL_node]
  simp only [List.map_cons, List.map_nil, extractLeafTT, TTree.denoteL_node]
  decide

/--
C5 (code bug). A scripts map whose value is not a string is not treated as
an absent field: the unchecked command.(string) type assertion panics,
aborting the visit (and crashing the program) instead of contributing
nothing for the mismatched field.
-/
theorem c5_nonstring_panics :
    (extractTT exFS5 false ["package.json"]).denoteL = [ExtractEvent.panicked] ∧
    extractProceeds exFS5 ["package.json"] = false := by
  constructor
  · show (extractTopTT exFS5 ["package.json"]).denoteL = _
    have hpr : extractProceeds exFS5 ["package.json"] = false := by decide
    rw [extractTopTT, hpr, if_neg (by simp), TTree.denoteL_node]
    simp only [List.map_nil, List.flatten_nil, List.append_nil]
    decide
  · decide

/--
C6 (code bug). The lockfile walk does not terminate on absolute manifest
paths: with no lockfile anywhere, the loop condition dir not equal to the
dot path never fails because filepath.Dir of the filesystem root is the
root itself, so the model returns none for every fuel. On relative paths
the walk terminates for every lockfile environment, and with no lockfiles
it returns npm as the claim describes.
-/
theorem c6_lockfile_walk :
    (∀ fuel : Nat,
      inferPackageManager (fun _ _ => false) fuel ⟨true, ["a", "package.json"]⟩ = none) ∧
    (∀ (locks : GPath → String → Bool) (d : GPath), d.absolute = false →
      ∃ pm, inferPMLoop locks (d.comps.length + 1) d = some pm) ∧
    inferPackageManager (fun _ _ => false) 2 ⟨false, ["a", "package.json"]⟩ = some "npm" := by
  refine ⟨?_, ?_, by decide⟩
  · intro fuel
    rw [inferPackageManager]
    exact inferPMLoop_abs_none fuel _ rfl
  · intro locks d habs
    exact inferPMLoop_rel_terminates locks d.comps.length d habs (le_refl _)

/-- C6 (witness). The walk instantiated on concrete absolute and relative paths. -/
theorem c6_lockfile_walk_witness :
    inferPackageManager (fun _ _ => false) 7 ⟨true, ["a", "package.json"]⟩ = none ∧
    (∃ pm, inferPMLoop (fun _ _ => false) 2 ⟨false, ["a"]⟩ = some pm) :=
  ⟨c6_lockfile_walk.1 7, c6_lockfile_walk.2.1 (fun _ _ => false) ⟨false, ["a"]⟩ rfl⟩

/--
C7 (counterexample). One syntactically invalid pattern does not merely
lose its own expansion in the workspace-manifest resolver: it aborts the
whole resolution. On a workspace declaring a valid pattern with an
existing match next to an invalid one, the resolver errors and the pnpm
branch of extraction spawns nothing, even though the valid pattern has a
member with a manifest.
-/
theorem c7_counterexample :
    locatePnpmWorkspaces exFS7 [] = none ∧
    pnpmSpawns exFS7 ["package.json"] = [] ∧
    glob exFS7 ["apps", "*"] = some [["apps", "a"]] ∧
    pathExists exFS7 ["apps", "a", "package.json"] = true := by
  refine ⟨by decide, by decide, by decide, by decide⟩

/--
C7 (amended). The two pattern-expansion sites have different error
policies. In the in-manifest workspaces expansion an invalid glob pattern
is skipped and every other pattern still contributes, in every state: the
fold equals the fold over the patterns with the invalid ones filtered out.
In the workspace-manifest resolver one invalid include pattern aborts the
entire resolution with an error, so no pattern of that file applies.
-/
theorem c7_pattern_error_policies :
    (∀ (fs : FNode) (dir : FPath) (patterns : List String),
      wsSpawnFold fs dir patterns =
        wsSpawnFold fs dir (patterns.filter
          (fun p => !(isGlobPattern p && (glob fs (joinRel dir p)).isNone)))) ∧
    (∀ (fs : FNode) (root : FPath) (pk : List String) (pat : FPath),
      readYamlPackages fs (root ++ ["pnpm-workspace.yaml"]) = some pk →
      pat ∈ (splitWsPatterns root pk).1 → glob fs pat = none →
      locatePnpmWorkspaces fs root = none) :=
  ⟨wsSpawnFold_skips_invalid, locatePnpm_aborts⟩

/-- C7 (witness). Both policies instantiated on concrete inputs. -/
theorem c7_pattern_error_policies_witness :
    (wsSpawnFold exFS1 [] ["bad[", "pkgs/m"] =
      wsSpawnFold exFS1 [] (["bad[", "pkgs/m"].filter
        (fun p => !(isGlobPattern p && (glob exFS1 (joinRel [] p)).isNone)))) ∧
    locatePnpmWorkspaces exFS7 [] = none :=
  ⟨c7_pattern_error_policies.1 exFS1 [] ["bad[", "pkgs/m"],
   c7_pattern_error_policies.2 exFS7 [] ["apps/*", "bad["] (joinRel [] "bad[")
     (by decide) (by decide) (by decide)⟩

/--
C8. On valid patterns the workspace-manifest resolver computes exactly the
include-minus-exclude set: it succeeds, its result has no duplicates, and
a path belongs to the result exactly when some include pattern matches it
and no exclude pattern matches it.
-/
theorem c8_include_minus_exclude (fs : FNode) (root : FPath) (pk : List String)
    (hy : readYamlPackages fs (root ++ ["pnpm-workspace.yaml"]) = some pk)
    (hval : ∀ pat ∈ (splitWsPatterns root pk).1 ++ (splitWsPatterns root pk).2,
      (glob fs pat).isSome = true) :
    ∃ l, locatePnpmWorkspaces fs root = some l ∧ l.Nodup ∧
      (∀ x, x ∈ l ↔
        ((∃ pat ∈ (splitWsPatterns root pk).1, x ∈ (glob fs pat).getD []) ∧
         ¬(∃ pat ∈ (splitWsPatterns root pk).2, x ∈ (glob fs pat).getD []))) := by
  obtain ⟨li, hli, hmemi, hndi⟩ := processIncludes_ok fs (splitWsPatterns root pk).1 []
    (fun pat h => hval pat (List.mem_append_left _ h))
  obtain ⟨le, hle, hmeme, hnde⟩ := processExcludes_ok fs (splitWsPatterns root pk).2 li
    (fun pat h => hval pat (List.mem_append_right _ h))
  refine ⟨le, ?_, hnde (hndi List.nodup_nil), ?_⟩
  · rw [locatePnpmWorkspaces, hy]
    simp only [hli, hle]
  · intro x
    rw [hmeme x, hmemi x]
    simp

/--
C8 (witness). The include pattern apps-star with the exclusion
apps-legacy resolves to every apps-star match except apps-legacy.
-/
theorem c8_include_minus_exclude_witness :
    (∃ l, locatePnpmWorkspaces exFS8 [] = some l ∧ l.Nodup ∧
      (∀ x, x ∈ l ↔
        ((∃ pat ∈ (splitWsPatterns [] ["apps/*", "!apps/legacy"]).1,
            x ∈ (glob exFS8 pat).getD []) ∧
         ¬(∃ pat ∈ (splitWsPatterns [] ["apps/*", "!apps/legacy"]).2,
            x ∈ (glob exFS8 pat).getD [])))) ∧
    locatePnpmWorkspaces exFS8 [] = some [["apps", "a"]] :=
  ⟨c8_include_minus_exclude exFS8 [] ["apps/*", "!apps/legacy"] (by decide) (by decide),
   by decide⟩

/--
C9. A manifest whose decoded scripts field is a string-to-string map of
size N yields exactly one batch holding exactly N entries, each carrying
the literal script name, the literal command string and the manifest path.
-/
theorem c9_scripts_exact (fs : FNode) (filePath : FPath) (doc : List (String × GoVal))
    (entries : List (String × String))
    (hdoc : readManifestDoc fs filePath = some doc)
    (hs : jLookup doc "scripts" =
      some (GoVal.vmap (entries.map (fun e => (e.1, GoVal.vstr e.2)))))
    (hkeys : (entries.map Prod.fst).Nodup) :
    (extractTT fs true filePath).denoteL =
      [ExtractEvent.batch (entries.map (fun e =>
        (⟨packageNameOf doc, e.1, e.2, filePath⟩ : NpmScript)))] ∧
    (entries.map (fun e =>
      (⟨packageNameOf doc, e.1, e.2, filePath⟩ : NpmScript))).length = entries.length := by
  constructor
  · show (extractLeafTT fs filePath).denoteL = _
    simp only [extractLeafTT, TTree.denoteL_node, extractEvents0, hdoc, scriptsResOf, hs,
      allStringValues_map, List.map_nil, List.flatten_nil, List.append_nil]
  · simp

/-- C9 (witness). A concrete manifest with two scripts yields its two entries. -/
theorem c9_scripts_exact_witness :
    (extractTT exFS9 true ["package.json"]).denoteL =
      [ExtractEvent.batch ([("build", "tsc"), ("test", "jest")].map (fun e =>
        (⟨packageNameOf [("name", GoVal.vstr "nine"),
            ("scripts", GoVal.vmap [("build", GoVal.vstr "tsc"), ("test", GoVal.vstr "jest")])],
          e.1, e.2, ["package.json"]⟩ : NpmScript)))] ∧
    ([("build", "tsc"), ("test", "jest")].map (fun e =>
      (⟨packageNameOf [("name", GoVal.vstr "nine"),
          ("scripts", GoVal.vmap [("build", GoVal.vstr "tsc"), ("test", GoVal.vstr "jest")])],
        e.1, e.2, ["package.json"]⟩ : NpmScript))).length
      = ([("build", "tsc"), ("test", "jest")] : List (String × String)).length :=
  c9_scripts_exact exFS9 ["package.json"]
    [("name", GoVal.vstr "nine"),
     ("scripts", GoVal.vmap [("build", GoVal.vstr "tsc"), ("test", GoVal.vstr "jest")])]
    [("build", "tsc"), ("test", "jest")] (by rfl) (by rfl) (by decide)

/--
C10. Discovery is deterministic up to ordering: for any two pairs of
schedules long enough to drain the walk and the extraction queues, the
emitted events agree as multisets, and so do the catalogs of scripts
assembled from them.
-/
theorem c10_determinism (fs : FNode) (s1 s2 s1b s2b : List Nat)
    (h1 : totalSize [walkerTask fs] ≤ s1.length)
    (h1b : totalSize [walkerTask fs] ≤ s1b.length)
    (h2 : totalSize (extractionTasks fs (discoveredPaths fs s1)) ≤ s2.length)
    (h2b : totalSize (extractionTasks fs (discoveredPaths fs s1b)) ≤ s2b.length) :
    ((discoveryEvents fs s1 s2 : List ExtractEvent) : Multiset ExtractEvent) =
      (discoveryEvents fs s1b s2b : List ExtractEvent) ∧
    ((catalogScripts (discoveryEvents fs s1 s2) : List NpmScript) : Multiset NpmScript) =
      (catalogScripts (discoveryEvents fs s1b s2b) : List NpmScript) := by
  have hphase1 : ((discoveredPaths fs s1 : List FPath) : Multiset FPath) =
      (discoveredPaths fs s1b : List FPath) := by
    rw [discoveredPaths, discoveredPaths, runSched_eq_totalDenote s1 _ h1,
      runSched_eq_totalDenote s1b _ h1b]
  have hperm : (discoveredPaths fs s1).Perm (discoveredPaths fs s1b) :=
    Multiset.coe_eq_coe.mp hphase1
  have hev : ((discoveryEvents fs s1 s2 : List ExtractEvent) : Multiset ExtractEvent) =
      (discoveryEvents fs s1b s2b : List ExtractEvent) := by
    rw [discoveryEvents, discoveryEvents, runSched_eq_totalDenote s2 _ h2,
      runSched_eq_totalDenote s2b _ h2b, totalDenote, totalDenote, extractionTasks,
      extractionTasks]
    exact ((hperm.map _).map _).sum_eq
  exact ⟨hev, catalogScripts_coe_eq _ _ hev⟩

/--
C10 (witness). Two runs of discovery over the same concrete tree under
different schedules produce the same event multiset and catalog multiset.
-/
theorem c10_determinism_witness :
    ((discoveryEvents exFS9 [0] [0] : List ExtractEvent) : Multiset ExtractEvent) =
      (discoveryEvents exFS9 [1] [2] : List ExtractEvent) ∧
    ((catalogScripts (discoveryEvents exFS9 [0] [0]) : List NpmScript) : Multiset NpmScript) =
      (catalogScripts (discoveryEvents exFS9 [1] [2]) : List NpmScript) := by
  have hw : walkerTask exFS9 = TTree.node [["package.json"]] [] := by
    simp [walkerTask, walkTT, exFS9, entryLookup]
  have hwsize : totalSize [walkerTask exFS9] = 1 := by
    rw [hw, totalSize, List.map_cons, List.map_nil, TTree.size_node]
    simp
  have hx : extractTT exFS9 false ["package.json"] =
      TTree.node (extractEvents0 exFS9 ["package.json"]) [] := by
    show extractTopTT exFS9 ["package.json"] = _
    have hcp : extractChildPaths exFS9 ["package.json"] = [] := by decide
    have hpr : extractProceeds exFS9 ["package.json"] = true := by decide
    rw [extractTopTT, hcp, hpr, if_pos rfl]
    simp
  have hpaths : ∀ s : List Nat, s.length = 1 → discoveredPaths exFS9 s = [["package.json"]] := by
    intro s hs
    cases s with
    | nil => simp at hs
    | cons i rest =>
      cases rest with
      | nil =>
        rw [discoveredPaths, hw]
        rw [runSched]
        simp [runSched, TTree.out, TTree.children]
      | cons j r2 => simp at hs
  have hsize2 : ∀ s : List Nat, s.length = 1 →
      totalSize (extractionTasks exFS9 (discoveredPaths exFS9 s)) = 1 := by
    intro s hs
    rw [hpaths s hs, extractionTasks, List.map_cons, List.map_nil, hx, totalSize,
      List.map_cons, List.map_nil, TTree.size_node]
    simp
  exact c10_determinism exFS9 [0] [0] [1] [2]
    (by rw [hwsize]; decide) (by rw [hwsize]; decide)
    (by rw [hsize2 [0] rfl]; decide) (by rw [hsize2 [1] rfl]; decide)
